import Mathlib

/-!
Shallow embedding of the download-planning core of the `metalink-downloader`
repository (crates `metalink-downloader` and `iana-registry-enums`), together
with theorems settling the claims about it.

Conventions of the embedding:
* `u64`/`u16` values are modelled as `Nat`; where the Rust code can wrap
  (release-profile two's-complement wraparound) the wraparound is written
  explicitly with `% 2^w`.
* Byte buffers (`bytes::Bytes`, file contents) are `List Nat`; paths and URLs
  are `String`.
* The concrete hash implementations (md2, md5, sha…) are abstracted by an
  oracle `HashFn : HashFunctionTextualName → List Nat → String` standing for
  the hex digest of a buffer; none of the claims depends on concrete digest
  values, only on which algorithm is dispatched and how results are compared.
* A Rust panic (`unimplemented!()`, `Option::unwrap` on `None`,
  `async_channel::bounded(0)`) is modelled by `Option`/a dedicated `panicked`
  constructor: `none`/`panicked` means the Rust code aborts instead of
  returning.
-/

namespace MetalinkDl

/-- `HashFunctionTextualName` from
`iana-registry-enums/src/hash_function_textual_names.rs`, constructors in
declaration order (the derived Rust `Ord` compares by declaration order). -/
inductive HashFunctionTextualName where
  | Md2
  | Md5
  | Sha1
  | Sha224
  | Sha256
  | Sha384
  | Sha512
  | Shake128
  | Shake256
  deriving DecidableEq, Repr

/-- Discriminant of a constructor; the derived `Ord` of the Rust enum orders
values by this rank (declaration order). -/
def hashRank : HashFunctionTextualName → Nat
  | .Md2 => 0
  | .Md5 => 1
  | .Sha1 => 2
  | .Sha224 => 3
  | .Sha256 => 4
  | .Sha384 => 5
  | .Sha512 => 6
  | .Shake128 => 7
  | .Shake256 => 8

/-- Digest oracle: hex digest of a byte buffer under a given algorithm.
Stands for the md2/md5/sha1/sha2 implementations used by
`metalink-downloader/src/types.rs`. -/
abbrev HashFn := HashFunctionTextualName → List Nat → String

/-- `CheckSum` from `metalink-downloader/src/types.rs`. -/
structure CheckSum where
  hash_type : HashFunctionTextualName
  checksum : String
  deriving DecidableEq, Repr

def CheckSum.new (hash_type : HashFunctionTextualName) (checksum : String) :
    CheckSum :=
  { hash_type := hash_type, checksum := checksum }

/-- Result of `CheckSum::calculate_checksum`: the Rust function returns a
`String` and has no error channel; for SHAKE128/SHAKE256 it executes
`unimplemented!()`, i.e. it panics. -/
inductive ChecksumOutcome where
  | computed (digest : String)
  | panicked
  deriving DecidableEq, Repr

/-- `CheckSum::calculate_checksum` (types.rs): dispatch on the algorithm; the
seven implemented algorithms hash the buffer, the catch-all arm is
`unimplemented!()` (a panic, modelled as `panicked`). -/
def CheckSum.calculate_checksum (hf : HashFn) (cs : CheckSum)
    (data : List Nat) : ChecksumOutcome :=
  match cs.hash_type with
  | .Md2 => .computed (hf .Md2 data)
  | .Md5 => .computed (hf .Md5 data)
  | .Sha1 => .computed (hf .Sha1 data)
  | .Sha224 => .computed (hf .Sha224 data)
  | .Sha256 => .computed (hf .Sha256 data)
  | .Sha384 => .computed (hf .Sha384 data)
  | .Sha512 => .computed (hf .Sha512 data)
  | .Shake128 => .panicked
  | .Shake256 => .panicked

/-- `CheckSum::validate_checksum` (types.rs): compare the computed digest with
the stored one. `none` propagates the SHAKE panic. -/
def CheckSum.validate_checksum (hf : HashFn) (cs : CheckSum)
    (data : List Nat) : Option Bool :=
  match cs.calculate_checksum hf data with
  | .computed d => some (d == cs.checksum)
  | .panicked => none

/-- `CheckSum::validate_file_checksum` (types.rs): digest the whole file and
compare (`calculate_file_checksum` streams the same bytes through the same
hashers, so it is modelled by the same digest oracle applied to the file's
contents; an I/O error maps to `false` in the source and cannot occur in the
pure model). `none` propagates the SHAKE panic. -/
def CheckSum.validate_file_checksum (hf : HashFn) (cs : CheckSum)
    (fileBytes : List Nat) : Option Bool :=
  match cs.calculate_checksum hf fileBytes with
  | .computed d => some (d == cs.checksum)
  | .panicked => none

/-- `ChunkMetaData` from types.rs. The source field `end` is called `endPos`
here because `end` is a Lean keyword. -/
structure ChunkMetaData where
  start : Nat
  endPos : Nat
  checksum : Option CheckSum
  filename : String
  deriving DecidableEq, Repr

/-- `ChunkMetaData::new` (types.rs): checksum starts out absent. -/
def ChunkMetaData.new (start endPos : Nat) (filename : String) :
    ChunkMetaData :=
  { start := start, endPos := endPos, checksum := none, filename := filename }

/-- `ChunkMetaData::has_checksum`. -/
def ChunkMetaData.has_checksum (c : ChunkMetaData) : Bool :=
  c.checksum.isSome

/-- `ChunkMetaData::chunk_size` = `end - start + 1` (u64). The claims only
exercise chunks with `start ≤ end`, where `Nat` subtraction agrees with u64
subtraction. -/
def ChunkMetaData.chunk_size (c : ChunkMetaData) : Nat :=
  c.endPos - c.start + 1

/-- `ChunkMetaData::validate_checksum` (types.rs):
`self.checksum.as_ref().map(|c| c.validate_checksum(bytes))`. The outer
`Option` (`none`) models the SHAKE panic inside, the inner one the source's
`Option<bool>` (absent checksum). -/
def ChunkMetaData.validate_checksum (hf : HashFn) (c : ChunkMetaData)
    (bytes : List Nat) : Option (Option Bool) :=
  match c.checksum with
  | none => some none
  | some cs =>
    match cs.validate_checksum hf bytes with
    | some b => some (some b)
    | none => none

/-- `ChunkMetaData::is_valid_on_disk` (types.rs): without a stored checksum the
chunk is never valid; otherwise seek to `start`, read `chunk_size` bytes, and
if the read is short return `false`, else compare digests. Reading at offset
`start` from a file with contents `fileBytes` yields
`(fileBytes.drop start).take size`. `none` models the SHAKE panic. -/
def ChunkMetaData.is_valid_on_disk (hf : HashFn) (c : ChunkMetaData)
    (fileBytes : List Nat) : Option Bool :=
  match c.checksum with
  | none => some false
  | some cs =>
    let buffer := (fileBytes.drop c.start).take c.chunk_size
    if buffer.length ≠ c.chunk_size then some false
    else cs.validate_checksum hf buffer

def U64_MOD : Nat := 2 ^ 64

/-- Wrapping u64 decrement: `n - 1` with two's-complement wraparound, as the
release profile compiles `x - 1`. Agrees with exact subtraction for
`1 ≤ n ≤ 2^64`. -/
def u64sub1 (n : Nat) : Nat :=
  (n + (U64_MOD - 1)) % U64_MOD

/-- Loop body of `ChunkMetaData::calculate_ranges` (types.rs; the identical
free function lives in utils.rs). The `while remaining_size > block_size` loop
is written with a fuel parameter: when `block_size ≥ 1` every iteration
consumes at least one unit of `remaining_size`, so fuel `total_size` is never
exhausted (for `block_size = 0` the Rust loop never terminates; no claim
covers that input). -/
def calcRangesGo (blockSize : Nat) (filename : String) :
    Nat → Nat → Nat → List ChunkMetaData
  | 0, currentPos, remainingSize =>
    [ChunkMetaData.new currentPos (u64sub1 (currentPos + remainingSize))
      filename]
  | fuel + 1, currentPos, remainingSize =>
    if blockSize < remainingSize then
      ChunkMetaData.new currentPos (u64sub1 (currentPos + blockSize)) filename
        :: calcRangesGo blockSize filename fuel (currentPos + blockSize)
          (remainingSize - blockSize)
    else
      [ChunkMetaData.new currentPos (u64sub1 (currentPos + remainingSize))
        filename]

/-- `calculate_ranges(total_size, block_size, filename)` from types.rs /
utils.rs. -/
def calculate_ranges (total_size block_size : Nat) (filename : String) :
    List ChunkMetaData :=
  calcRangesGo block_size filename total_size 0 total_size

/-- Start of the first range of a list (0 for the empty list). -/
def firstStart : List ChunkMetaData → Nat
  | [] => 0
  | c :: _ => c.start

/-- End of the last range of a list (0 for the empty list). -/
def lastEnd : List ChunkMetaData → Nat
  | [] => 0
  | [c] => c.endPos
  | _ :: c :: rest => lastEnd (c :: rest)

/-- Sum of the chunk sizes of a list of ranges. -/
def chunksSizeSum (l : List ChunkMetaData) : Nat :=
  (l.map ChunkMetaData.chunk_size).sum

/-- Contiguity: each range starts at the previous range's end plus one. -/
def chainB : List ChunkMetaData → Bool
  | [] => true
  | [_] => true
  | a :: c :: rest => (c.start == a.endPos + 1) && chainB (c :: rest)

/-- `FilePlan` from types.rs. -/
structure FilePlan where
  target_file : String
  url : String
  file_checksums : Option CheckSum
  chunks : Option (List ChunkMetaData)
  file_size : Option Nat
  deriving DecidableEq, Repr

/-- `Plan` from types.rs. -/
structure Plan where
  files : List FilePlan
  total_size : Nat
  deriving DecidableEq, Repr

/-- The target directory's state: maps a path to the contents of the file
stored there, `none` when no file exists at the path. -/
abbrev Disk := String → Option (List Nat)

/-- The chunk loop of `Plan::minimize_plan` (types.rs): push every chunk that
is not valid on disk. `none` propagates the panic from a SHAKE chunk
checksum. -/
def minimizeChunks (hf : HashFn) (fileBytes : List Nat) :
    List ChunkMetaData → Option (List ChunkMetaData)
  | [] => some []
  | c :: rest => do
    let v ← ChunkMetaData.is_valid_on_disk hf c fileBytes
    let rest' ← minimizeChunks hf fileBytes rest
    some (if v then rest' else c :: rest')

/-- The per-file body of `Plan::minimize_plan` (types.rs). Outer `Option`:
`none` models a panic inside; inner `Option`: `some g` means the file is kept
as `g` in the minimized plan, `none` means it is dropped. The branches mirror
the source: a file whose target does not exist is kept unchanged; a file with
chunks keeps exactly the chunks that are not valid on disk and is dropped when
none remain; a chunkless file with a whole-file checksum is dropped when the
checksum validates; a chunkless file without checksums is kept. -/
def minimizeFile (hf : HashFn) (disk : Disk) (f : FilePlan) :
    Option (Option FilePlan) :=
  match disk f.target_file with
  | none => some (some f)
  | some fileBytes =>
    match f.chunks with
    | some chunks =>
      (minimizeChunks hf fileBytes chunks).map (fun minimized =>
        if minimized.isEmpty then none
        else some { f with chunks := some minimized })
    | none =>
      match f.file_checksums with
      | some checksum =>
        (checksum.validate_file_checksum hf fileBytes).map (fun ok =>
          if ok then none else some f)
      | none => some (some f)

/-- The file loop of `Plan::minimize_plan`: apply `minimizeFile` to each file
in order, collecting the kept files. -/
def minimizeFiles (hf : HashFn) (disk : Disk) :
    List FilePlan → Option (List FilePlan)
  | [] => some []
  | f :: rest => do
    let r ← minimizeFile hf disk f
    let rest' ← minimizeFiles hf disk rest
    some (match r with
      | some g => g :: rest'
      | none => rest')

/-- The `total_size` recomputation loop at the end of `Plan::minimize_plan`:
sum of the chunk sizes for files with chunks, `file.file_size.unwrap()`
otherwise — `none` models the unwrap panic when a chunkless file has no
declared size. -/
def planRemainingSize : List FilePlan → Option Nat
  | [] => some 0
  | f :: rest => do
    let restSize ← planRemainingSize rest
    match f.chunks with
    | some chunks =>
      some ((chunks.map ChunkMetaData.chunk_size).sum + restSize)
    | none =>
      match f.file_size with
      | some s => some (s + restSize)
      | none => none

/-- `Plan::minimize_plan` (types.rs): minimize every file, then recompute
`total_size` over the result. `none` models a panic. -/
def Plan.minimize_plan (hf : HashFn) (disk : Disk) (p : Plan) : Option Plan := do
  let files ← minimizeFiles hf disk p.files
  let total ← planRemainingSize files
  some { files := files, total_size := total }

/-- Spec-side predicate (hypothesis of the idempotence property): the file is
present on disk and verifies correct — every chunk digest matches, or for a
chunkless file the whole-file checksum matches. -/
def fullyPresentAndValid (hf : HashFn) (disk : Disk) (f : FilePlan) : Bool :=
  match disk f.target_file with
  | none => false
  | some fileBytes =>
    match f.chunks with
    | some chunks =>
      chunks.all (fun c =>
        ChunkMetaData.is_valid_on_disk hf c fileBytes == some true)
    | none =>
      match f.file_checksums with
      | some checksum =>
        checksum.validate_file_checksum hf fileBytes == some true
      | none => false

/-- Spec-side formula (C7): the remaining work of a minimized file — the sum
of its kept chunk sizes when it has a chunk list, its declared size
otherwise. -/
def remainingWork (f : FilePlan) : Nat :=
  match f.chunks with
  | some chunks => (chunks.map ChunkMetaData.chunk_size).sum
  | none => f.file_size.getD 0

/-- Retry middleware parameters (the shape a `reqwest-retry`-style exponential
backoff policy would carry: attempt cap, base multiplier, jitter flag). -/
structure RetryPolicy where
  maxAttempts : Nat
  baseMultiplier : Nat
  jitter : Bool
  deriving DecidableEq, Repr

/-- Configuration accumulated by the `reqwest::ClientBuilder` calls in
`make_http_client` (http.rs). `retryPolicy` would be populated by wrapping the
built client in a retry middleware; `reqwest::ClientBuilder` itself never sets
it, and the source builds a plain `reqwest::Client`. -/
structure ClientConfig where
  httpsOnly : Bool := false
  http2PriorKnowledge : Bool := false
  gzip : Bool := false
  zstd : Bool := false
  timeoutSecs : Option Nat := none
  userAgent : Option String := none
  retryPolicy : Option RetryPolicy := none
  deriving DecidableEq, Repr

/-- `reqwest::ClientBuilder::new()`. -/
def clientBuilderNew : ClientConfig := {}

def ClientConfig.https_only (c : ClientConfig) (b : Bool) : ClientConfig :=
  { c with httpsOnly := b }

def ClientConfig.http2_prior_knowledge (c : ClientConfig) : ClientConfig :=
  { c with http2PriorKnowledge := true }

def ClientConfig.gzipOn (c : ClientConfig) (b : Bool) : ClientConfig :=
  { c with gzip := b }

def ClientConfig.zstdOn (c : ClientConfig) (b : Bool) : ClientConfig :=
  { c with zstd := b }

def ClientConfig.timeout (c : ClientConfig) (secs : Nat) : ClientConfig :=
  { c with timeoutSecs := some secs }

def ClientConfig.user_agent (c : ClientConfig) (ua : String) : ClientConfig :=
  { c with userAgent := some ua }

/-- `make_http_client` (http.rs lines 13–22): the exact builder chain of the
source — `https_only(true)`, `http2_prior_knowledge()`, `gzip(true)`,
`zstd(true)`, `timeout(20s)`, `user_agent(ua)`, then `build()` (which only
materializes the configuration). No retry middleware is installed anywhere in
the chain. -/
def make_http_client (user_agent : String) : ClientConfig :=
  ((((((clientBuilderNew.https_only
    true).http2_prior_knowledge).gzipOn
    true).zstdOn
    true).timeout
    20).user_agent
    user_agent)

def U16_MOD : Nat := 2 ^ 16

/-- `(max_threads - 1) as usize` in `download` (http.rs): `max_threads` is a
`u16`, so under the release profile the subtraction wraps modulo `2^16`. -/
def u16sub1 (n : Nat) : Nat :=
  (n + (U16_MOD - 1)) % U16_MOD

/-- `available_parallelism` in `download` (http.rs line 279):
`min((max_threads - 1) as usize, ranges.len())`. -/
def availableParallelism (maxThreads chunkCount : Nat) : Nat :=
  Nat.min (u16sub1 maxThreads) chunkCount

/-- The worker-pool setup of `download` (http.rs lines 279–292): the bounded
job queue is created with capacity `available_parallelism` and exactly
`available_parallelism` workers are spawned. `async_channel::bounded` panics
when its capacity is zero, modelled by `none`; otherwise the pair is
`(queue capacity, worker count)`. -/
def downloadSetup (maxThreads chunkCount : Nat) : Option (Nat × Nat) :=
  let ap := availableParallelism maxThreads chunkCount
  if ap = 0 then none else some (ap, ap)

/-- Outcome of one `request_range(...)` + `response.bytes()` round trip:
either the fetched bytes or a transport error. -/
inductive FetchResult where
  | success (bytes : List Nat)
  | failure
  deriving DecidableEq, Repr

/-- Observable outcome of `download_chunk` (http.rs lines 84–140):
`sent offset bytes` — a `WriteFileChunk{offset, bytes}` command was forwarded
to the file writer and the job returned `Ok`; `netError` — a transport error
was propagated by `?`; `checksumError` — the final
`Err("Unable to download chunk")` after the retry loop; `panicked` — the
SHAKE `unimplemented!()` panic inside checksum validation. -/
inductive DlResult where
  | sent (offset : Nat) (bytes : List Nat)
  | netError
  | checksumError
  | panicked
  deriving DecidableEq, Repr

/-- The `for _ in 0..3` retry loop of `download_chunk`, for a chunk that
carries a checksum. `fetch i` is the result of the i-th range request,
`attemptsLeft` counts the remaining loop iterations and `used` the fetches
already performed; the returned `Nat` is the total number of fetches
performed. -/
def downloadChunkGo (hf : HashFn) (c : ChunkMetaData)
    (fetch : Nat → FetchResult) : Nat → Nat → DlResult × Nat
  | 0, used => (.checksumError, used)
  | attemptsLeft + 1, used =>
    match fetch used with
    | .failure => (.netError, used + 1)
    | .success bytes =>
      match c.validate_checksum hf bytes with
      | none => (.panicked, used + 1)
      | some (some true) => (.sent c.start bytes, used + 1)
      | some (some false) => downloadChunkGo hf c fetch attemptsLeft (used + 1)
      | some none => downloadChunkGo hf c fetch attemptsLeft (used + 1)

/-- `download_chunk` (http.rs): with a checksum, run the 3-attempt
fetch-and-verify loop; without one, forward the first successful fetch
unconditionally. -/
def download_chunk (hf : HashFn) (c : ChunkMetaData)
    (fetch : Nat → FetchResult) : DlResult × Nat :=
  if c.has_checksum then downloadChunkGo hf c fetch 3 0
  else
    match fetch 0 with
    | .failure => (.netError, 1)
    | .success bytes => (.sent c.start bytes, 1)

/-- `metalink::Hash` (metalink/src/models/hash.rs): optional recognized
algorithm name plus hex value. -/
structure MHash where
  hash_type : Option HashFunctionTextualName
  value : String
  deriving DecidableEq, Repr

/-- One comparison step of `Iterator::max_by_key` keyed by the derived `Ord`
of `HashFunctionTextualName` (declaration-order rank): keep the later element
on ties, as Rust's `max_by_key` does. -/
def maxStep (acc y : HashFunctionTextualName × String) :
    HashFunctionTextualName × String :=
  if hashRank acc.1 ≤ hashRank y.1 then y else acc

/-- `Iterator::max_by_key` over `(algorithm, value)` pairs: fold of `maxStep`,
`none` on the empty list. -/
def maxByKeyRank : List (HashFunctionTextualName × String) →
    Option (HashFunctionTextualName × String)
  | [] => none
  | x :: xs => some (xs.foldl maxStep x)

/-- The whole-file checksum selection of `FilePlan::new` (types.rs lines
139–147): keep the hashes with a recognized algorithm
(`filter(is_some)` + `unwrap`, written as one `filterMap`), take the maximum
by algorithm, and build the `CheckSum` from it. -/
def selectFileChecksum (hashes : List MHash) : Option CheckSum :=
  (maxByKeyRank (hashes.filterMap
    (fun h => h.hash_type.map (fun t => (t, h.value))))).map
    (fun p => CheckSum.new p.1 p.2)

/-- Concrete digest oracle for witnesses: every buffer hashes to `"h"` under
every algorithm. -/
def oracleH : HashFn := fun _ _ => "h"

/-- Concrete disk for witnesses: one four-byte file at path `"t"`. -/
def diskT : Disk := fun s => if s = "t" then some [0, 0, 0, 0] else none

/-- Concrete disk with no files. -/
def diskEmpty : Disk := fun _ => none

/-- Chunk `[0,1]` of `"t"` whose digest matches under `oracleH`. -/
def chunkOk : ChunkMetaData :=
  { start := 0, endPos := 1, checksum := some (CheckSum.new .Sha256 "h"),
    filename := "t" }

/-- Chunk `[2,3]` of `"t"` whose digest matches under `oracleH`. -/
def chunkOk2 : ChunkMetaData :=
  { start := 2, endPos := 3, checksum := some (CheckSum.new .Sha256 "h"),
    filename := "t" }

/-- Chunk `[2,3]` of `"t"` whose stored digest `"x"` never matches
`oracleH`. -/
def chunkBad : ChunkMetaData :=
  { start := 2, endPos := 3, checksum := some (CheckSum.new .Sha256 "x"),
    filename := "t" }

/-- Chunk `[0,0]` of `"t"` carrying a SHAKE128 digest. -/
def chunkShake : ChunkMetaData :=
  { start := 0, endPos := 0, checksum := some (CheckSum.new .Shake128 "aa"),
    filename := "t" }

/-- File plan with one matching and one mismatching chunk. -/
def filePlanChunks : FilePlan :=
  { target_file := "t", url := "u", file_checksums := none,
    chunks := some [chunkOk, chunkBad], file_size := some 4 }

/-- File plan with a single SHAKE-checksummed chunk. -/
def filePlanShake : FilePlan :=
  { target_file := "t", url := "u", file_checksums := none,
    chunks := some [chunkShake], file_size := some 1 }

/-- Chunkless file plan without checksum and without a declared size. -/
def filePlanNoSize : FilePlan :=
  { target_file := "n", url := "u", file_checksums := none, chunks := none,
    file_size := none }

/-- File plan whose two chunks are both valid on `diskT` under `oracleH`. -/
def filePlanAllValid : FilePlan :=
  { target_file := "t", url := "u", file_checksums := none,
    chunks := some [chunkOk, chunkOk2], file_size := some 4 }

/-- Chunkless file plan whose whole-file checksum matches under `oracleH`. -/
def filePlanWholeValid : FilePlan :=
  { target_file := "t", url := "u",
    file_checksums := some (CheckSum.new .Md5 "h"), chunks := none,
    file_size := some 4 }

/-- Plan whose files are fully present and valid on `diskT`. -/
def planAllValid : Plan :=
  { files := [filePlanAllValid, filePlanWholeValid], total_size := 8 }

/-- The minimized form of `{files := [filePlanChunks], total_size := 4}` on
`diskT` under `oracleH`: only the mismatching chunk is left and `total_size`
is its size. -/
def filePlanOnlyBad : FilePlan :=
  { target_file := "t", url := "u", file_checksums := none,
    chunks := some [chunkBad], file_size := some 4 }

def planMinimizedW : Plan :=
  { files := [filePlanOnlyBad], total_size := 2 }

theorem u64sub1_eq {n : Nat} (h1 : 1 ≤ n) (h2 : n ≤ U64_MOD) :
    u64sub1 n = n - 1 := by
  unfold u64sub1 U64_MOD at *
  have hrw : n + (2 ^ 64 - 1) = (n - 1) + 1 * 2 ^ 64 := by omega
  rw [hrw, Nat.add_mul_mod_self_right]
  exact Nat.mod_eq_of_lt (by omega)

theorem u64sub1_zero : u64sub1 0 = U64_MOD - 1 := by
  unfold u64sub1
  exact Nat.mod_eq_of_lt (by unfold U64_MOD; omega)

theorem lastEnd_cons (a : ChunkMetaData) {l : List ChunkMetaData}
    (h : l ≠ []) : lastEnd (a :: l) = lastEnd l := by
  cases l with
  | nil => exact absurd rfl h
  | cons c rest => rfl

theorem chainB_cons (a : ChunkMetaData) {l : List ChunkMetaData}
    (h : l ≠ []) :
    chainB (a :: l) = ((firstStart l == a.endPos + 1) && chainB l) := by
  cases l with
  | nil => exact absurd rfl h
  | cons c rest => rfl

theorem chainB_tail (a : ChunkMetaData) {l : List ChunkMetaData}
    (h : chainB (a :: l) = true) : chainB l = true := by
  cases l with
  | nil => rfl
  | cons c rest =>
    have := chainB_cons a (l := c :: rest) (by simp)
    rw [this] at h
    exact (Bool.and_eq_true_iff.mp h).2

/-- Invariant of the `calculate_ranges` loop, proved by induction on the fuel:
starting the loop at position `pos` with `rem` bytes remaining produces a
nonempty, contiguous, size-exact list of ranges covering
`[pos, pos + rem - 1]`. -/
theorem calcRangesGo_spec (b : Nat) (fn : String) (hb : 1 ≤ b) :
    ∀ fuel pos rem, 1 ≤ rem → rem ≤ fuel → pos + rem ≤ U64_MOD →
      calcRangesGo b fn fuel pos rem ≠ [] ∧
      firstStart (calcRangesGo b fn fuel pos rem) = pos ∧
      lastEnd (calcRangesGo b fn fuel pos rem) = pos + rem - 1 ∧
      chunksSizeSum (calcRangesGo b fn fuel pos rem) = rem ∧
      chainB (calcRangesGo b fn fuel pos rem) = true ∧
      ∀ c ∈ calcRangesGo b fn fuel pos rem,
        c.start ≤ c.endPos ∧ c.checksum = none ∧ c.filename = fn := by
  intro fuel
  induction fuel with
  | zero =>
    intro pos rem h1 h2 _
    exact absurd h2 (by omega)
  | succ f ih =>
    intro pos rem h1 h2 h3
    by_cases hc : b < rem
    · have hsub : u64sub1 (pos + b) = pos + b - 1 :=
        u64sub1_eq (by omega) (by omega)
      obtain ⟨tne, tfs, tle, tsum, tchain, tmem⟩ :=
        ih (pos + b) (rem - b) (by omega) (by omega) (by omega)
      have hgo : calcRangesGo b fn (f + 1) pos rem =
          ChunkMetaData.new pos (pos + b - 1) fn
            :: calcRangesGo b fn f (pos + b) (rem - b) := by
        rw [calcRangesGo, if_pos hc, hsub]
      rw [hgo]
      refine ⟨by simp, rfl, ?_, ?_, ?_, ?_⟩
      · rw [lastEnd_cons _ tne, tle]; omega
      · simp only [chunksSizeSum, List.map_cons, List.sum_cons]
        have : (ChunkMetaData.new pos (pos + b - 1) fn).chunk_size = b := by
          simp only [ChunkMetaData.chunk_size, ChunkMetaData.new]; omega
        rw [this]
        simp only [chunksSizeSum] at tsum
        omega
      · rw [chainB_cons _ tne, tfs]
        have : pos + b = (ChunkMetaData.new pos (pos + b - 1) fn).endPos + 1 := by
          simp only [ChunkMetaData.new]; omega
        simp [tchain, ← this]
      · intro c hcmem
        rcases List.mem_cons.mp hcmem with rfl | hmem
        · exact ⟨by simp only [ChunkMetaData.new]; omega, rfl, rfl⟩
        · exact tmem c hmem
    · have hsub : u64sub1 (pos + rem) = pos + rem - 1 :=
        u64sub1_eq (by omega) (by omega)
      have hgo : calcRangesGo b fn (f + 1) pos rem =
          [ChunkMetaData.new pos (pos + rem - 1) fn] := by
        rw [calcRangesGo, if_neg hc, hsub]
      rw [hgo]
      refine ⟨by simp, rfl, rfl, ?_, rfl, ?_⟩
      · simp only [chunksSizeSum, List.map_cons, List.map_nil, List.sum_cons,
          List.sum_nil, ChunkMetaData.chunk_size, ChunkMetaData.new]
        omega
      · intro c hcmem
        rcases List.mem_cons.mp hcmem with rfl | hmem
        · exact ⟨by simp only [ChunkMetaData.new]; omega, rfl, rfl⟩
        · simp at hmem

/-- Elements after the head of a contiguous list of well-formed ranges start
strictly after the head's end. -/
theorem chain_head_lt :
    ∀ (l : List ChunkMetaData) (a : ChunkMetaData),
      chainB (a :: l) = true → (∀ c ∈ a :: l, c.start ≤ c.endPos) →
      ∀ c ∈ l, a.endPos < c.start := by
  intro l
  induction l with
  | nil => intro a _ _ c hc; simp at hc
  | cons b rest ih =>
    intro a hchain hwf c hc
    have hcons := chainB_cons a (l := b :: rest) (by simp)
    rw [hcons] at hchain
    obtain ⟨hstart, htail⟩ := Bool.and_eq_true_iff.mp hchain
    have hbstart : b.start = a.endPos + 1 := by
      simp only [firstStart, beq_iff_eq] at hstart
      exact hstart
    rcases List.mem_cons.mp hc with rfl | hrest
    · omega
    · have hb := ih b htail (fun d hd => hwf d (List.mem_cons_of_mem a hd))
        c hrest
      have hbwf : b.start ≤ b.endPos :=
        (hwf b (by simp)).trans_eq rfl
      omega

/-- A contiguous list of well-formed ranges is pairwise strictly increasing,
hence sorted and non-overlapping. -/
theorem chain_pairwise :
    ∀ l : List ChunkMetaData, chainB l = true →
      (∀ c ∈ l, c.start ≤ c.endPos) →
      l.Pairwise (fun a c => a.endPos < c.start) := by
  intro l
  induction l with
  | nil => intro _ _; exact List.Pairwise.nil
  | cons a rest ih =>
    intro hchain hwf
    exact List.Pairwise.cons (chain_head_lt rest a hchain hwf)
      (ih (chainB_tail a hchain) (fun c hc => hwf c (List.mem_cons_of_mem a hc)))

/-- C1: for every `total_size > 0` and `block_size > 0` (u64 values), the list
returned by `calculate_ranges` is a partition of the file: nonempty, first
range starts at 0, last range ends at `total_size - 1`, ranges are contiguous
(each start is the previous end + 1), sorted and non-overlapping (pairwise
`end < start`), and the chunk sizes sum to `total_size`; when
`total_size ≤ block_size` exactly the single range `[0, total_size-1]` is
returned. -/
theorem calculate_ranges_partition (t b : Nat) (fn : String)
    (ht : 1 ≤ t) (hb : 1 ≤ b) (hu : t < U64_MOD) :
    calculate_ranges t b fn ≠ [] ∧
    firstStart (calculate_ranges t b fn) = 0 ∧
    lastEnd (calculate_ranges t b fn) = t - 1 ∧
    chainB (calculate_ranges t b fn) = true ∧
    (calculate_ranges t b fn).Pairwise (fun a c => a.endPos < c.start) ∧
    chunksSizeSum (calculate_ranges t b fn) = t ∧
    (t ≤ b → calculate_ranges t b fn = [ChunkMetaData.new 0 (t - 1) fn]) := by
  obtain ⟨hne, hfs, hle, hsum, hchain, hmem⟩ :=
    calcRangesGo_spec b fn hb t 0 t ht (Nat.le_refl t) (by omega)
  refine ⟨hne, hfs, by simpa using hle, hchain, ?_, hsum, ?_⟩
  · exact chain_pairwise _ hchain (fun c hc => (hmem c hc).1)
  · intro htb
    obtain ⟨f, rfl⟩ : ∃ f, t = f + 1 := ⟨t - 1, by omega⟩
    show calcRangesGo b fn (f + 1) 0 (f + 1) = _
    rw [calcRangesGo, if_neg (by omega),
      u64sub1_eq (by omega) (by omega)]
    norm_num

/-- Witness for C1 at the spec's own test vectors. -/
theorem calculate_ranges_partition_witness :
    calculate_ranges 5 10 "x" = [ChunkMetaData.new 0 4 "x"] ∧
    chunksSizeSum (calculate_ranges 15 10 "y") = 15 :=
  ⟨(calculate_ranges_partition 5 10 "x" (by decide) (by decide)
      (by decide)).2.2.2.2.2.2 (by decide),
   (calculate_ranges_partition 15 10 "y" (by decide) (by decide)
      (by decide)).2.2.2.2.2.1⟩

/-- C10: for `total_size = 0` and any positive `block_size`, the loop still
emits one final range whose end is the u64 subtraction `0 + 0 - 1`, i.e.
(modulo `2^64`, the release-profile wraparound) the single range
`[0, 2^64 - 1]`; in particular the result is not empty. -/
theorem calculate_ranges_zero_underflow (b : Nat) (fn : String)
    (_hb : 1 ≤ b) :
    calculate_ranges 0 b fn = [ChunkMetaData.new 0 (U64_MOD - 1) fn] ∧
    calculate_ranges 0 b fn ≠ [] := by
  have h : calculate_ranges 0 b fn = [ChunkMetaData.new 0 (U64_MOD - 1) fn] := by
    show calcRangesGo b fn 0 0 0 = _
    rw [calcRangesGo]
    simp [u64sub1_zero]
  exact ⟨h, by rw [h]; simp⟩

/-- Witness for C10 at `block_size = 10`. -/
theorem calculate_ranges_zero_underflow_witness :
    calculate_ranges 0 10 "z" = [ChunkMetaData.new 0 (U64_MOD - 1) "z"] :=
  (calculate_ranges_zero_underflow 10 "z" (by decide)).1

theorem u16sub1_eq {n : Nat} (h1 : 1 ≤ n) (h2 : n ≤ U16_MOD) :
    u16sub1 n = n - 1 := by
  unfold u16sub1 U16_MOD at *
  have hrw : n + (2 ^ 16 - 1) = (n - 1) + 1 * 2 ^ 16 := by omega
  rw [hrw, Nat.add_mul_mod_self_right]
  exact Nat.mod_eq_of_lt (by omega)

/-- C3 counterexample: the client built by `make_http_client` carries no retry
policy at all — the builder chain is `https_only`/`http2_prior_knowledge`/
`gzip`/`zstd`/`timeout`/`user_agent`/`build` and no retry middleware is
installed — refuting the claim that every request is wrapped in an
exponential-backoff retry policy capped at 5 attempts. -/
theorem make_http_client_no_retry :
    (make_http_client "agent").retryPolicy = none := rfl

/-- C3 amended: `make_http_client` builds a plain client enforcing TLS-only
connections, HTTP/2 prior knowledge, gzip and zstd compression, a fixed
20-second timeout and the given user agent, with no retry policy installed, so
a transient network error is surfaced to the caller on its first occurrence
rather than after a retry bound. -/
theorem make_http_client_config (ua : String) :
    make_http_client ua =
      { httpsOnly := true, http2PriorKnowledge := true, gzip := true,
        zstd := true, timeoutSecs := some 20, userAgent := some ua,
        retryPolicy := none } := rfl

/-- C4 counterexample: at `max_threads = 1` with 3 chunks the pool size is
`min(1 - 1, 3) = 0`, not `max(1, min(1 - 1, 3)) = 1`, and creating the
bounded job queue with capacity 0 panics (`downloadSetup = none`), refuting
the claim that at least one worker is spawned for every input. -/
theorem download_pool_counterexample :
    availableParallelism 1 3 ≠ Nat.max 1 (Nat.min (1 - 1) 3) ∧
    downloadSetup 1 3 = none := by decide

/-- C4 amended: `download` spawns `W = min(max_threads - 1, chunk_count)`
workers pulling from a bounded queue of capacity `W` — without the claimed
`max(1, ·)` clamp. For `max_threads ≥ 2` and a non-empty chunk list, `W ≥ 1`
and the setup succeeds; for `max_threads = 0` the u16 subtraction wraps so
`W = min(2^16 - 1, chunk_count)`; for `max_threads = 1`, `W = 0` and the
zero-capacity queue construction panics. -/
theorem download_pool_size (t n : Nat) (h2 : 2 ≤ t) (ht : t < U16_MOD)
    (hn : 1 ≤ n) :
    availableParallelism t n = Nat.min (t - 1) n ∧
    1 ≤ availableParallelism t n ∧
    downloadSetup t n =
      some (availableParallelism t n, availableParallelism t n) ∧
    (∀ m, 1 ≤ m → availableParallelism 0 m = Nat.min (U16_MOD - 1) m) := by
  have hsub : u16sub1 t = t - 1 := u16sub1_eq (by omega) (by omega)
  have hap : availableParallelism t n = Nat.min (t - 1) n := by
    unfold availableParallelism
    rw [hsub]
  have hpos : 1 ≤ availableParallelism t n := by
    rw [hap]
    exact le_min (by omega) hn
  refine ⟨hap, hpos, ?_, ?_⟩
  · unfold downloadSetup
    rw [if_neg (by omega)]
  · intro m _
    have h0 : u16sub1 0 = U16_MOD - 1 := by
      unfold u16sub1
      exact Nat.mod_eq_of_lt (by unfold U16_MOD; omega)
    unfold availableParallelism
    rw [h0]

/-- Witness for the amended C4 at `max_threads = 3` and 5 chunks. -/
theorem download_pool_size_witness :
    availableParallelism 3 5 = 2 ∧ downloadSetup 3 5 = some (2, 2) := by
  have h := download_pool_size 3 5 (by decide) (by decide) (by decide)
  exact ⟨h.1, h.2.2.1⟩

/-- C5 counterexample: requesting checksum computation for SHAKE128 hits the
`unimplemented!()` arm — a panic that aborts, not an `UnsupportedAlgorithm`
error value (the function has no error channel at all) — and in the
chunk-download path the panic happens only after the chunk's bytes were
fetched (one fetch performed), not before any I/O. -/
theorem shake_panics_counterexample :
    CheckSum.calculate_checksum oracleH (CheckSum.new .Shake128 "dd") [1] =
      ChecksumOutcome.panicked ∧
    download_chunk oracleH chunkShake (fun _ => .success [9]) =
      (DlResult.panicked, 1) := by decide

/-- C5 amended: requesting checksum verification with SHAKE128 or SHAKE256
panics via `unimplemented!()` (aborting the task) instead of returning an
`UnsupportedAlgorithm` error, and in the chunk-download path the panic occurs
after the chunk has been fetched: a chunk carrying a SHAKE checksum performs
exactly one range request and then aborts. -/
theorem shake_validation_panics (hf : HashFn) (cs : CheckSum)
    (data : List Nat)
    (h : cs.hash_type = .Shake128 ∨ cs.hash_type = .Shake256) :
    cs.calculate_checksum hf data = .panicked ∧
    (∀ (c : ChunkMetaData) (fetch : Nat → FetchResult) (bytes : List Nat),
      c.checksum = some cs → fetch 0 = .success bytes →
      download_chunk hf c fetch = (.panicked, 1)) := by
  have hcalc : ∀ d, cs.calculate_checksum hf d = .panicked := by
    intro d
    rcases h with h | h <;> simp [CheckSum.calculate_checksum, h]
  refine ⟨hcalc data, ?_⟩
  intro c fetch bytes hc hf0
  have hhas : c.has_checksum = true := by
    simp [ChunkMetaData.has_checksum, hc]
  have hval : c.validate_checksum hf bytes = none := by
    simp [ChunkMetaData.validate_checksum, hc, CheckSum.validate_checksum,
      hcalc bytes]
  simp [download_chunk, hhas, downloadChunkGo, hf0, hval]

/-- Witness for the amended C5 at SHAKE256. -/
theorem shake_validation_panics_witness :
    CheckSum.calculate_checksum oracleH (CheckSum.new .Shake256 "ee") [2] =
      ChecksumOutcome.panicked :=
  (shake_validation_panics oracleH (CheckSum.new .Shake256 "ee") [2]
    (Or.inr rfl)).1

/-- When no chunk's validation panics, the chunk loop of `minimize_plan`
returns exactly the chunks that are not valid on disk, in order. -/
theorem minimizeChunks_eq_filter (hf : HashFn) (fileBytes : List Nat) :
    ∀ cs : List ChunkMetaData,
      (∀ c ∈ cs, ChunkMetaData.is_valid_on_disk hf c fileBytes ≠ none) →
      minimizeChunks hf fileBytes cs =
        some (cs.filter (fun c =>
          ChunkMetaData.is_valid_on_disk hf c fileBytes != some true)) := by
  intro cs
  induction cs with
  | nil => intro _; rfl
  | cons c rest ih =>
    intro h
    rcases hv : ChunkMetaData.is_valid_on_disk hf c fileBytes with _ | v
    · exact absurd hv (h c (by simp))
    · have ihh := ih (fun d hd => h d (List.mem_cons_of_mem c hd))
      cases v <;>
        simp [minimizeChunks, hv, ihh, List.filter_cons]

theorem length_filter_not_add {α : Type} (p : α → Bool) :
    ∀ l : List α,
      (l.filter (fun a => !(p a))).length + (l.filter p).length = l.length := by
  intro l
  induction l with
  | nil => rfl
  | cons a rest ih =>
    cases hp : p a <;> simp [List.filter_cons, hp] <;> omega

/-- C2 counterexample: a plan whose single on-disk file has one chunk with a
SHAKE128 digest makes `minimize_plan` panic inside checksum validation
(`unimplemented!()`), so it neither retains nor drops anything, refuting the
claim for every such plan. -/
theorem minimize_shake_counterexample :
    Plan.minimize_plan oracleH diskT
      { files := [filePlanShake], total_size := 1 } = none := by decide

/-- C2 amended: for a file plan whose target exists on disk and that has a
chunk list, provided no chunk digest uses an unsupported (SHAKE) algorithm —
otherwise validation panics — `minimize_plan`'s per-file step retains exactly
the chunks whose on-disk byte range fails verification or that carry no
digest (with N chunks of which M verify, exactly N − M chunks remain), and
drops the file entirely when no chunks remain. -/
theorem minimize_retains_unverified (hf : HashFn) (disk : Disk) (f : FilePlan)
    (fileBytes : List Nat) (cs : List ChunkMetaData)
    (hdisk : disk f.target_file = some fileBytes)
    (hchunks : f.chunks = some cs)
    (hnp : ∀ c ∈ cs, ChunkMetaData.is_valid_on_disk hf c fileBytes ≠ none) :
    minimizeFile hf disk f =
      some (if (cs.filter (fun c =>
            ChunkMetaData.is_valid_on_disk hf c fileBytes != some true)).isEmpty
        then none
        else some { f with chunks := some (cs.filter (fun c =>
            ChunkMetaData.is_valid_on_disk hf c fileBytes != some true)) }) ∧
    (cs.filter (fun c =>
        ChunkMetaData.is_valid_on_disk hf c fileBytes != some true)).length =
      cs.length - (cs.filter (fun c =>
        ChunkMetaData.is_valid_on_disk hf c fileBytes == some true)).length ∧
    (∀ c ∈ cs, c.checksum = none →
      c ∈ cs.filter (fun c =>
        ChunkMetaData.is_valid_on_disk hf c fileBytes != some true)) := by
  refine ⟨?_, ?_, ?_⟩
  · simp [minimizeFile, hdisk, hchunks,
      minimizeChunks_eq_filter hf fileBytes cs hnp]
  · have hln := length_filter_not_add
      (fun c => ChunkMetaData.is_valid_on_disk hf c fileBytes == some true) cs
    have hrw : (cs.filter (fun c =>
        ChunkMetaData.is_valid_on_disk hf c fileBytes != some true)) =
        cs.filter (fun c =>
          !(ChunkMetaData.is_valid_on_disk hf c fileBytes == some true)) := rfl
    rw [hrw]
    omega
  · intro c hc hcs
    rw [List.mem_filter]
    refine ⟨hc, ?_⟩
    have hfalse : ChunkMetaData.is_valid_on_disk hf c fileBytes = some false := by
      simp [ChunkMetaData.is_valid_on_disk, hcs]
    rw [hfalse]
    rfl

/-- Witness for the amended C2: of the two chunks of `filePlanChunks`, the
matching one is removed and the mismatching one retained (2 chunks, 1
verifies, 1 remains). -/
theorem minimize_retains_unverified_witness :
    minimizeFile oracleH diskT filePlanChunks = some (some filePlanOnlyBad) := by
  rw [(minimize_retains_unverified oracleH diskT filePlanChunks
    [0, 0, 0, 0] [chunkOk, chunkBad] (by decide) (by decide) (by decide)).1]
  decide

/-- Every file of a fully-present-and-valid plan is dropped by the per-file
minimization step. -/
theorem minimizeFile_of_fullyValid (hf : HashFn) (disk : Disk) (f : FilePlan)
    (h : fullyPresentAndValid hf disk f = true) :
    minimizeFile hf disk f = some none := by
  unfold fullyPresentAndValid at h
  rcases hd : disk f.target_file with _ | fileBytes
  · rw [hd] at h; simp at h
  · rw [hd] at h
    rcases hc : f.chunks with _ | chunks
    · rw [hc] at h
      rcases hcs : f.file_checksums with _ | checksum
      · rw [hcs] at h; simp at h
      · rw [hcs] at h
        simp only [beq_iff_eq] at h
        simp [minimizeFile, hd, hc, hcs, h]
    · rw [hc] at h
      have hall : ∀ c ∈ chunks,
          ChunkMetaData.is_valid_on_disk hf c fileBytes = some true := by
        intro c hcmem
        have := List.all_eq_true.mp h c hcmem
        simpa [beq_iff_eq] using this
      have hmc : minimizeChunks hf fileBytes chunks = some [] := by
        rw [minimizeChunks_eq_filter hf fileBytes chunks
          (fun c hc2 => by rw [hall c hc2]; simp)]
        congr 1
        refine List.filter_eq_nil_iff.mpr (fun c hc2 => ?_)
        rw [hall c hc2]
        simp
      simp [minimizeFile, hd, hc, hmc]

theorem minimizeFiles_all_valid (hf : HashFn) (disk : Disk) :
    ∀ fs : List FilePlan,
      (∀ f ∈ fs, fullyPresentAndValid hf disk f = true) →
      minimizeFiles hf disk fs = some [] := by
  intro fs
  induction fs with
  | nil => intro _; rfl
  | cons f rest ih =>
    intro h
    simp [minimizeFiles,
      minimizeFile_of_fullyValid hf disk f (h f (by simp)),
      ih (fun g hg => h g (List.mem_cons_of_mem f hg))]

/-- C6: minimizing a plan all of whose files are fully present on disk and
verify correct (every chunk digest matches, or the whole-file checksum
matches for chunkless files) yields an empty file list and a total size
of 0. -/
theorem minimize_plan_idempotent (hf : HashFn) (disk : Disk) (p : Plan)
    (h : p.files.all (fullyPresentAndValid hf disk) = true) :
    Plan.minimize_plan hf disk p = some { files := [], total_size := 0 } := by
  have hfs : minimizeFiles hf disk p.files = some [] :=
    minimizeFiles_all_valid hf disk p.files
      (fun f hf2 => List.all_eq_true.mp h f hf2)
  simp [Plan.minimize_plan, hfs, planRemainingSize]

/-- Witness for C6: a plan with one all-chunks-valid file and one chunkless
file with a matching whole-file checksum minimizes to the empty plan. -/
theorem minimize_plan_idempotent_witness :
    Plan.minimize_plan oracleH diskT planAllValid =
      some { files := [], total_size := 0 } :=
  minimize_plan_idempotent oracleH diskT planAllValid (by decide)

theorem planRemainingSize_sum :
    ∀ (l : List FilePlan) (n : Nat), planRemainingSize l = some n →
      n = (l.map remainingWork).sum := by
  intro l
  induction l with
  | nil =>
    intro n h
    simp [planRemainingSize] at h
    simp [← h]
  | cons f rest ih =>
    intro n h
    rcases hr : planRemainingSize rest with _ | restSize
    · simp [planRemainingSize, hr] at h
    · rcases hc : f.chunks with _ | chunks
      · rcases hs : f.file_size with _ | s
        · simp [planRemainingSize, hr, hc, hs] at h
        · simp only [planRemainingSize, hr, hc, hs, Option.bind_eq_bind,
            Option.some_bind, Option.some.injEq] at h
          simp [← h, remainingWork, hc, hs, ih restSize hr]
      · simp only [planRemainingSize, hr, hc, Option.bind_eq_bind,
          Option.some_bind, Option.some.injEq] at h
        simp [← h, remainingWork, hc, ih restSize hr]

/-- C7 counterexample: a plan retaining a chunkless file without a declared
size makes the `total_size` recomputation panic
(`file.file_size.unwrap()` on `None`), so the recomputation does not succeed
for every minimized plan. -/
theorem minimize_total_nosize_counterexample :
    Plan.minimize_plan oracleH diskEmpty
      { files := [filePlanNoSize], total_size := 0 } = none := by decide

/-- C7 amended: whenever `minimize_plan` returns, the `total_size` of the
minimized plan equals the sum over the retained files of the kept chunk sizes
(`end - start + 1`) for files with a chunk list and the declared file size
otherwise; the recomputation panics — does not return — when a retained
chunkless file has no declared size. -/
theorem minimized_total_size (hf : HashFn) (disk : Disk) (p q : Plan)
    (h : Plan.minimize_plan hf disk p = some q) :
    q.total_size = (q.files.map remainingWork).sum := by
  rcases hfs : minimizeFiles hf disk p.files with _ | files
  · simp [Plan.minimize_plan, hfs] at h
  · rcases hts : planRemainingSize files with _ | total
    · simp [Plan.minimize_plan, hfs, hts] at h
    · simp only [Plan.minimize_plan, hfs, hts, Option.bind_eq_bind,
        Option.some_bind, Option.some.injEq] at h
      rw [← h]
      exact planRemainingSize_sum files total hts

/-- Witness for the amended C7 on the concretely minimized plan
`planMinimizedW`. -/
theorem minimized_total_size_witness :
    planMinimizedW.total_size = (planMinimizedW.files.map remainingWork).sum :=
  minimized_total_size oracleH diskT
    { files := [filePlanChunks], total_size := 4 } planMinimizedW (by decide)

/-- C8: every chunk job performs at most 3 fetches; a chunk with a checksum
that mismatches on all 3 attempts yields the fatal checksum error exactly
after attempt 3, a first digest match at attempt `k` forwards
`(offset, bytes)` and stops after `k + 1` fetches, the fatal checksum error
arises only when all 3 attempts fetched successfully and mismatched, and a
chunk without checksum forwards its first successful fetch unconditionally
after exactly one fetch. -/
theorem download_chunk_retry_policy (hf : HashFn) (c : ChunkMetaData)
    (fetch : Nat → FetchResult) :
    (download_chunk hf c fetch).2 ≤ 3 ∧
    (∀ cs, c.checksum = some cs →
      ((∀ i, i < 3 → ∃ b, fetch i = FetchResult.success b ∧
          c.validate_checksum hf b = some (some false)) →
        download_chunk hf c fetch = (.checksumError, 3)) ∧
      (∀ k b, k < 3 → fetch k = FetchResult.success b →
        c.validate_checksum hf b = some (some true) →
        (∀ j, j < k → ∃ bj, fetch j = FetchResult.success bj ∧
            c.validate_checksum hf bj = some (some false)) →
        download_chunk hf c fetch = (.sent c.start b, k + 1)) ∧
      (download_chunk hf c fetch = (.checksumError, 3) →
        ∀ i, i < 3 → ∃ b, fetch i = FetchResult.success b ∧
          c.validate_checksum hf b = some (some false))) ∧
    (c.checksum = none → ∀ b, fetch 0 = FetchResult.success b →
      download_chunk hf c fetch = (.sent c.start b, 1)) := by
  have hgo_le : ∀ r used, (downloadChunkGo hf c fetch r used).2 ≤ used + r := by
    intro r
    induction r with
    | zero => intro used; simp [downloadChunkGo]
    | succ r ih =>
      intro used
      cases hfe : fetch used with
      | failure => simp [downloadChunkGo, hfe]
      | success b =>
        rcases hv : c.validate_checksum hf b with _ | ob
        · simp [downloadChunkGo, hfe, hv]
        · rcases ob with _ | v
          · simp only [downloadChunkGo, hfe, hv]
            have := ih (used + 1)
            omega
          · cases v
            · simp only [downloadChunkGo, hfe, hv]
              have := ih (used + 1)
              omega
            · simp [downloadChunkGo, hfe, hv]
  refine ⟨?_, ?_, ?_⟩
  · cases hhc : c.has_checksum with
    | true =>
      have := hgo_le 3 0
      simpa [download_chunk, hhc] using this
    | false =>
      cases hfe : fetch 0 <;> simp [download_chunk, hhc, hfe]
  · intro cs hcs
    have hhc : c.has_checksum = true := by
      simp [ChunkMetaData.has_checksum, hcs]
    have hvnn : ∀ b, c.validate_checksum hf b ≠ some none := by
      intro b hb
      cases hcv : cs.validate_checksum hf b <;>
        simp [ChunkMetaData.validate_checksum, hcs, hcv] at hb
    refine ⟨?_, ?_, ?_⟩
    · intro hall
      obtain ⟨b0, hf0, hv0⟩ := hall 0 (by omega)
      obtain ⟨b1, hf1, hv1⟩ := hall 1 (by omega)
      obtain ⟨b2, hf2, hv2⟩ := hall 2 (by omega)
      simp [download_chunk, hhc, downloadChunkGo, hf0, hv0, hf1, hv1, hf2, hv2]
    · intro k b hk hfk hvk hprev
      interval_cases k
      · simp [download_chunk, hhc, downloadChunkGo, hfk, hvk]
      · obtain ⟨b0, hf0, hv0⟩ := hprev 0 (by omega)
        simp [download_chunk, hhc, downloadChunkGo, hf0, hv0, hfk, hvk]
      · obtain ⟨b0, hf0, hv0⟩ := hprev 0 (by omega)
        obtain ⟨b1, hf1, hv1⟩ := hprev 1 (by omega)
        simp [download_chunk, hhc, downloadChunkGo, hf0, hv0, hf1, hv1,
          hfk, hvk]
    · intro h
      cases hf0 : fetch 0 with
      | failure => simp [download_chunk, hhc, downloadChunkGo, hf0] at h
      | success b0 =>
        rcases hv0 : c.validate_checksum hf b0 with _ | ob0
        · simp [download_chunk, hhc, downloadChunkGo, hf0, hv0] at h
        · rcases ob0 with _ | v0
          · exact absurd hv0 (hvnn b0)
          · cases v0 with
            | true => simp [download_chunk, hhc, downloadChunkGo, hf0, hv0] at h
            | false =>
              cases hf1 : fetch 1 with
              | failure =>
                simp [download_chunk, hhc, downloadChunkGo, hf0, hv0, hf1] at h
              | success b1 =>
                rcases hv1 : c.validate_checksum hf b1 with _ | ob1
                · simp [download_chunk, hhc, downloadChunkGo, hf0, hv0, hf1,
                    hv1] at h
                · rcases ob1 with _ | v1
                  · exact absurd hv1 (hvnn b1)
                  · cases v1 with
                    | true =>
                      simp [download_chunk, hhc, downloadChunkGo, hf0, hv0,
                        hf1, hv1] at h
                    | false =>
                      cases hf2 : fetch 2 with
                      | failure =>
                        simp [download_chunk, hhc, downloadChunkGo, hf0, hv0,
                          hf1, hv1, hf2] at h
                      | success b2 =>
                        rcases hv2 : c.validate_checksum hf b2 with _ | ob2
                        · simp [download_chunk, hhc, downloadChunkGo, hf0,
                            hv0, hf1, hv1, hf2, hv2] at h
                        · rcases ob2 with _ | v2
                          · exact absurd hv2 (hvnn b2)
                          · cases v2 with
                            | true =>
                              simp [download_chunk, hhc, downloadChunkGo, hf0,
                                hv0, hf1, hv1, hf2, hv2] at h
                            | false =>
                              intro i hi
                              interval_cases i
                              · exact ⟨b0, hf0, hv0⟩
                              · exact ⟨b1, hf1, hv1⟩
                              · exact ⟨b2, hf2, hv2⟩
  · intro hnone b hb
    have hhc : c.has_checksum = false := by
      simp [ChunkMetaData.has_checksum, hnone]
    simp [download_chunk, hhc, hb]

/-- Witness for C8: a chunk whose stored digest never matches the oracle, with
every fetch succeeding, ends in the fatal checksum error after exactly 3
fetches. -/
theorem download_chunk_retry_policy_witness :
    download_chunk oracleH chunkBad (fun _ => FetchResult.success [5]) =
      (DlResult.checksumError, 3) :=
  ((download_chunk_retry_policy oracleH chunkBad
      (fun _ => FetchResult.success [5])).2.1
    (CheckSum.new .Sha256 "x") rfl).1
    (fun i _ => ⟨[5], rfl, by decide⟩)

theorem maxStep_cases (x z : HashFunctionTextualName × String) :
    maxStep x z = z ∨ maxStep x z = x := by
  unfold maxStep
  by_cases hle : hashRank x.1 ≤ hashRank z.1 <;> simp [hle]

theorem maxStep_ge_left (x z : HashFunctionTextualName × String) :
    hashRank x.1 ≤ hashRank (maxStep x z).1 := by
  unfold maxStep
  by_cases hle : hashRank x.1 ≤ hashRank z.1
  · simp [hle]
  · simp [hle]

theorem maxStep_ge_right (x z : HashFunctionTextualName × String) :
    hashRank z.1 ≤ hashRank (maxStep x z).1 := by
  unfold maxStep
  by_cases hle : hashRank x.1 ≤ hashRank z.1
  · simp [hle]
  · simp only [hle, if_false]
    omega

theorem foldlMax_mem :
    ∀ (l : List (HashFunctionTextualName × String)) x,
      l.foldl maxStep x ∈ x :: l := by
  intro l
  induction l with
  | nil => intro x; simp
  | cons z rest ih =>
    intro x
    rw [List.foldl_cons]
    rcases maxStep_cases x z with hs | hs <;> rw [hs]
    · exact List.mem_cons_of_mem x (ih z)
    · rcases List.mem_cons.mp (ih x) with h | h
      · rw [h]
        exact List.mem_cons_self x (z :: rest)
      · exact List.mem_cons_of_mem x (List.mem_cons_of_mem z h)

theorem foldlMax_ge :
    ∀ (l : List (HashFunctionTextualName × String)) x,
      hashRank x.1 ≤ hashRank (l.foldl maxStep x).1 ∧
      ∀ y ∈ l, hashRank y.1 ≤ hashRank (l.foldl maxStep x).1 := by
  intro l
  induction l with
  | nil => intro x; exact ⟨le_refl _, by simp⟩
  | cons z rest ih =>
    intro x
    rw [List.foldl_cons]
    obtain ⟨h1, h2⟩ := ih (maxStep x z)
    refine ⟨le_trans (maxStep_ge_left x z) h1, ?_⟩
    intro y hy
    rcases List.mem_cons.mp hy with rfl | hy2
    · exact le_trans (maxStep_ge_right x y) h1
    · exact h2 y hy2

/-- C9: for a file descriptor with a non-empty whole-file hash list containing
at least one recognized algorithm name, `FilePlan::new` selects a `CheckSum`
built from one of the hashes whose algorithm is maximal under the declaration
order MD2 < MD5 < SHA-1 < SHA-224 < SHA-256 < SHA-384 < SHA-512 < SHAKE128 <
SHAKE256 (entries with unrecognized names are ignored by the filter). -/
theorem file_checksum_strongest (hashes : List MHash)
    (h : ∃ x ∈ hashes, x.hash_type.isSome = true) :
    ∃ cs, selectFileChecksum hashes = some cs ∧
      (∃ x ∈ hashes, x.hash_type = some cs.hash_type ∧
        x.value = cs.checksum) ∧
      (∀ x ∈ hashes, ∀ t, x.hash_type = some t →
        hashRank t ≤ hashRank cs.hash_type) ∧
      (hashRank .Md2 < hashRank .Md5 ∧ hashRank .Md5 < hashRank .Sha1 ∧
        hashRank .Sha1 < hashRank .Sha224 ∧
        hashRank .Sha224 < hashRank .Sha256 ∧
        hashRank .Sha256 < hashRank .Sha384 ∧
        hashRank .Sha384 < hashRank .Sha512 ∧
        hashRank .Sha512 < hashRank .Shake128 ∧
        hashRank .Shake128 < hashRank .Shake256) := by
  obtain ⟨x0, hx0, hs0⟩ := h
  obtain ⟨t0, ht0⟩ := Option.isSome_iff_exists.mp hs0
  set recognized := hashes.filterMap
    (fun h2 => h2.hash_type.map (fun t => (t, h2.value))) with hrec
  have hmem0 : (t0, x0.value) ∈ recognized := by
    rw [hrec]
    exact List.mem_filterMap.mpr ⟨x0, hx0, by rw [ht0]; rfl⟩
  obtain ⟨p, ps, hcons⟩ :=
    List.exists_cons_of_ne_nil (List.ne_nil_of_mem hmem0)
  have hsel : selectFileChecksum hashes =
      some (CheckSum.new (ps.foldl maxStep p).1 (ps.foldl maxStep p).2) := by
    unfold selectFileChecksum
    rw [← hrec, hcons]
    rfl
  obtain ⟨hge, hall⟩ := foldlMax_ge ps p
  have hmmem : ps.foldl maxStep p ∈ recognized := by
    rw [hcons]
    exact foldlMax_mem ps p
  refine ⟨CheckSum.new (ps.foldl maxStep p).1 (ps.foldl maxStep p).2, hsel,
    ?_, ?_, by decide⟩
  · rw [hrec] at hmmem
    obtain ⟨x, hx, hfx⟩ := List.mem_filterMap.mp hmmem
    rcases hxt : x.hash_type with _ | t
    · rw [hxt] at hfx; simp at hfx
    · rw [hxt] at hfx
      simp only [Option.map_some', Option.some.injEq] at hfx
      refine ⟨x, hx, ?_, ?_⟩
      · rw [hxt]
        exact congrArg (fun q => some q.1) hfx
      · exact congrArg Prod.snd hfx
  · intro x hx t hxt
    have hmem : (t, x.value) ∈ recognized := by
      rw [hrec]
      exact List.mem_filterMap.mpr ⟨x, hx, by rw [hxt]; rfl⟩
    rw [hcons] at hmem
    rcases List.mem_cons.mp hmem with h' | h'
    · have ht : t = p.1 := congrArg Prod.fst h'
      rw [ht]
      exact hge
    · exact hall (t, x.value) h'

/-- Witness for C9: among md5, an unrecognized entry and sha-256, the sha-256
hash is selected. -/
theorem file_checksum_strongest_witness :
    ∃ cs, selectFileChecksum
      [{ hash_type := some .Md5, value := "a" },
        { hash_type := none, value := "z" },
        { hash_type := some .Sha256, value := "b" }] = some cs ∧
      (∃ x ∈ [{ hash_type := some .Md5, value := "a" },
        { hash_type := none, value := "z" },
        ({ hash_type := some .Sha256, value := "b" } : MHash)],
        x.hash_type = some cs.hash_type ∧ x.value = cs.checksum) :=
  have h := file_checksum_strongest
    [{ hash_type := some .Md5, value := "a" },
      { hash_type := none, value := "z" },
      { hash_type := some .Sha256, value := "b" }] (by decide)
  ⟨h.choose, h.choose_spec.1, h.choose_spec.2.1⟩

end MetalinkDl
